import Mathlib

/-
Verification of the me_fmap.py B0 fieldmap pipeline (repository jmtyszka/mrikit).

Modelling conventions.

Scalars: the pipeline works on numpy float64 arrays whose inputs are file
data (finite values).  We embed array elements as the type `Fv`: an exact
rational together with the IEEE-754 special values +inf, -inf and NaN.  The
arithmetic on `Fv` follows IEEE semantics on the cases that can arise
(0 * inf = NaN, NaN propagates, x / 0 = signed inf, 0 / 0 = NaN, finite / inf = 0,
log 0 = -inf, log of a negative = NaN, median of an empty selection = NaN).
The two signed zeros are conflated into `fin 0`, which is sound for every
claim here because IEEE -0.0 equals 0.0 and behaves like it in all the
operations the pipeline applies afterwards.  Float rounding is not modelled:
arithmetic on finite values is exact rational arithmetic.

Pi units: every value of the phase chain (scaled phase, phase difference,
unwrapped and filtered phase, the rad/s map) is represented by its
coefficient of pi, i.e. the stored number q stands for q * pi radians.
Under this convention the scaling `phs * np.pi / 4096` of the source becomes
`phs * (1/4096)`, the 2 pi period of wrapping becomes 2, and the conversion
`dB0_rad_s / (2.0 * np.pi)` becomes a division by 2 (the Hz map and the
gradient are therefore stored as plain absolute numbers).  This keeps the
whole phase chain inside ℚ, hence computable and decidable; claims stated in
radians are bridged back through multiplication by `Real.pi` where needed.

T2star: the relaxometry line applies `np.log`, so its values live in the
real-payload analogue `Rv` of `Fv`.
-/

/-- An IEEE-754 style float value with an exact rational finite part. -/
inductive Fv where
  | fin (q : ℚ)
  | pinf
  | ninf
  | nan
deriving DecidableEq

namespace Fv

/-- IEEE negation. -/
def neg : Fv → Fv
  | fin q => fin (-q)
  | pinf => ninf
  | ninf => pinf
  | nan => nan

/-- IEEE addition (inf - inf = NaN, NaN propagates). -/
def add : Fv → Fv → Fv
  | nan, _ => nan
  | _, nan => nan
  | fin a, fin b => fin (a + b)
  | fin _, pinf => pinf
  | fin _, ninf => ninf
  | pinf, fin _ => pinf
  | ninf, fin _ => ninf
  | pinf, pinf => pinf
  | ninf, ninf => ninf
  | pinf, ninf => nan
  | ninf, pinf => nan

/-- IEEE subtraction, as addition of the negation. -/
def sub (a b : Fv) : Fv := add a (neg b)

/-- IEEE multiplication (0 * inf = NaN, NaN propagates, signs of inf resolved). -/
def mul : Fv → Fv → Fv
  | nan, _ => nan
  | _, nan => nan
  | fin a, fin b => fin (a * b)
  | fin a, pinf => if a = 0 then nan else if 0 < a then pinf else ninf
  | fin a, ninf => if a = 0 then nan else if 0 < a then ninf else pinf
  | pinf, fin b => if b = 0 then nan else if 0 < b then pinf else ninf
  | ninf, fin b => if b = 0 then nan else if 0 < b then ninf else pinf
  | pinf, pinf => pinf
  | pinf, ninf => ninf
  | ninf, pinf => ninf
  | ninf, ninf => pinf

/-- IEEE division with numpy conventions: x / 0 is a signed infinity for
nonzero x (the denominator zero is an unsigned +0 here), 0 / 0 = NaN,
finite / inf = 0, inf / inf = NaN. -/
def div : Fv → Fv → Fv
  | nan, _ => nan
  | _, nan => nan
  | fin a, fin b =>
      if b = 0 then (if a = 0 then nan else if 0 < a then pinf else ninf)
      else fin (a / b)
  | fin _, pinf => fin 0
  | fin _, ninf => fin 0
  | pinf, fin b => if b < 0 then ninf else pinf
  | ninf, fin b => if b < 0 then pinf else ninf
  | pinf, pinf => nan
  | pinf, ninf => nan
  | ninf, pinf => nan
  | ninf, ninf => nan

/-- The value is finite. -/
def isFin (x : Fv) : Prop := ∃ q, x = fin q

@[simp] theorem sub_fin_fin (a b : ℚ) : sub (fin a) (fin b) = fin (a - b) := by
  simp [sub, add, neg, sub_eq_add_neg]

@[simp] theorem sub_fin_nan (a : Fv) : sub a nan = nan := by
  cases a <;> rfl

@[simp] theorem sub_nan (a : Fv) : sub nan a = nan := by
  cases a <;> rfl

@[simp] theorem mul_nan_left (a : Fv) : mul nan a = nan := by
  cases a <;> rfl

@[simp] theorem mul_nan_right (a : Fv) : mul a nan = nan := by
  cases a <;> rfl

@[simp] theorem mul_fin_fin (a b : ℚ) : mul (fin a) (fin b) = fin (a * b) := rfl

@[simp] theorem div_nan_left (a : Fv) : div nan a = nan := by
  cases a <;> rfl

@[simp] theorem div_nan_right (a : Fv) : div a nan = nan := by
  cases a <;> rfl

theorem div_fin_fin {b : ℚ} (a : ℚ) (hb : b ≠ 0) : div (fin a) (fin b) = fin (a / b) := by
  simp [div, hb]

/-- Multiplying any value by the finite 1 returns the value (true also for
NaN and the infinities). -/
theorem mul_fin_one (a : Fv) : mul a (fin 1) = a := by
  cases a <;> simp [mul]

theorem mul_fin_zero_of_isFin {a : Fv} (h : isFin a) : mul a (fin 0) = fin 0 := by
  obtain ⟨q, rfl⟩ := h
  simp [mul]

end Fv

/-- Insert into a sorted rational list (ascending). -/
def orderedInsertQ (a : ℚ) : List ℚ → List ℚ
  | [] => [a]
  | b :: l => if a ≤ b then a :: b :: l else b :: orderedInsertQ a l

/-- Insertion sort of a rational list, ascending. -/
def sortQ : List ℚ → List ℚ
  | [] => []
  | a :: l => orderedInsertQ a (sortQ l)

/-- Median of a list of rationals, with the numpy convention: the middle
element of the sorted list for odd length, the mean of the two central
elements for even length.  (The value on the empty list is irrelevant: the
pipeline guards the empty case separately, see npMedian.) -/
def medianQ (l : List ℚ) : ℚ :=
  let s := sortQ l
  let n := l.length
  if n % 2 = 1 then s.getD (n / 2) 0
  else (s.getD (n / 2 - 1) 0 + s.getD (n / 2) 0) / 2

/-- np.median over a finite-valued array, as used at line 92 of me_fmap.py:
NaN on an empty selection, the exact median otherwise. -/
def npMedian (l : List ℚ) : Fv :=
  if l.isEmpty then Fv.nan else Fv.fin (medianQ l)

/-- np.max over the flattened volume: maximum of a nonempty list of
rationals.  (np.max raises on an empty array; the value returned here for
the empty list is outside the modelled domain.) -/
def npMax : List ℚ → ℚ
  | [] => 0
  | a :: l => l.foldr max a

theorem le_foldr_max (a : ℚ) (l : List ℚ) : a ≤ l.foldr max a := by
  induction l with
  | nil => exact le_refl a
  | cons b t ih => exact le_trans ih (le_max_right b _)

theorem foldr_max_mem (a : ℚ) (l : List ℚ) : l.foldr max a ∈ a :: l := by
  induction l with
  | nil => simp
  | cons b t ih =>
    rcases max_choice b (t.foldr max a) with h | h
    · simp [List.foldr_cons, h]
    · have := ih
      simp only [List.foldr_cons, h]
      rcases List.mem_cons.mp this with h2 | h2
      · exact List.mem_cons.mpr (Or.inl h2)
      · exact List.mem_cons.mpr (Or.inr (List.mem_cons.mpr (Or.inr h2)))

theorem mem_le_foldr_max {x a : ℚ} {l : List ℚ} (h : x ∈ a :: l) : x ≤ l.foldr max a := by
  induction l with
  | nil => simp at h; simp [h]
  | cons b t ih =>
    simp only [List.foldr_cons]
    rcases List.mem_cons.mp h with h1 | h1
    · exact le_trans (ih (by simp [h1])) (le_max_right b _)
    · rcases List.mem_cons.mp h1 with h2 | h2
      · exact le_trans (le_of_eq h2) (le_max_left b _)
      · exact le_trans (ih (List.mem_cons.mpr (Or.inr h2))) (le_max_right b _)

theorem npMax_mem {l : List ℚ} (h : l ≠ []) : npMax l ∈ l := by
  cases l with
  | nil => exact absurd rfl h
  | cons a t => exact foldr_max_mem a t

theorem le_npMax {x : ℚ} {l : List ℚ} (h : x ∈ l) : x ≤ npMax l := by
  cases l with
  | nil => simp at h
  | cons a t => exact mem_le_foldr_max h

theorem orderedInsertQ_map_sub (a c : ℚ) (l : List ℚ) :
    orderedInsertQ (a - c) (l.map (fun x => x - c)) =
      (orderedInsertQ a l).map (fun x => x - c) := by
  induction l with
  | nil => rfl
  | cons b t ih =>
    by_cases h : a ≤ b
    · simp [orderedInsertQ, h, sub_le_sub_iff_right]
    · simp [orderedInsertQ, h, sub_le_sub_iff_right, ih]

theorem sortQ_map_sub (c : ℚ) (l : List ℚ) :
    sortQ (l.map (fun x => x - c)) = (sortQ l).map (fun x => x - c) := by
  induction l with
  | nil => rfl
  | cons a t ih => simp [sortQ, ih, orderedInsertQ_map_sub]

theorem length_orderedInsertQ (a : ℚ) (l : List ℚ) :
    (orderedInsertQ a l).length = l.length + 1 := by
  induction l with
  | nil => rfl
  | cons b t ih =>
    by_cases h : a ≤ b
    · simp [orderedInsertQ, h]
    · simp [orderedInsertQ, h, ih]

theorem length_sortQ (l : List ℚ) : (sortQ l).length = l.length := by
  induction l with
  | nil => rfl
  | cons a t ih => simp [sortQ, length_orderedInsertQ, ih]

theorem getD_map_sub (c : ℚ) (l : List ℚ) (i : ℕ) (h : i < l.length) :
    (l.map (fun x => x - c)).getD i 0 = l.getD i 0 - c := by
  induction l generalizing i with
  | nil => simp at h
  | cons a t ih =>
    cases i with
    | zero => simp
    | succ n =>
      simp only [List.map_cons, List.getD_cons_succ]
      exact ih n (by simpa using Nat.lt_of_succ_lt_succ h)

/-- Subtracting a constant from every element shifts the median by that
constant. -/
theorem medianQ_map_sub (c : ℚ) {l : List ℚ} (h : l ≠ []) :
    medianQ (l.map (fun x => x - c)) = medianQ l - c := by
  have hlen : l.length ≠ 0 := fun hl => h (List.length_eq_zero.mp hl)
  have hs := sortQ_map_sub c l
  have hslen : (sortQ l).length = l.length := length_sortQ l
  unfold medianQ
  simp only [List.length_map, hs]
  by_cases hodd : l.length % 2 = 1
  · rw [if_pos hodd, if_pos hodd]
    exact getD_map_sub c (sortQ l) _ (by omega)
  · rw [if_neg hodd, if_neg hodd,
      getD_map_sub c (sortQ l) _ (show l.length / 2 - 1 < (sortQ l).length by omega),
      getD_map_sub c (sortQ l) _ (show l.length / 2 < (sortQ l).length by omega)]
    ring

/-- A 3-D volume on a fixed voxel grid, with samples of type alpha. -/
abbrev Vol (nx ny nz : ℕ) (α : Type) := Fin nx → Fin ny → Fin nz → α

/-- All voxel indices of the grid, in C (row-major) order, the order numpy
flattens arrays in. -/
def allIdx (nx ny nz : ℕ) : List (Fin nx × Fin ny × Fin nz) :=
  (List.finRange nx).flatMap fun i =>
    (List.finRange ny).flatMap fun j =>
      (List.finRange nz).map fun k => (i, j, k)

/-- All samples of a volume, flattened in C order. -/
def allVals {nx ny nz : ℕ} {α : Type} (f : Vol nx ny nz α) : List α :=
  (allIdx nx ny nz).map fun p => f p.1 p.2.1 p.2.2

/-- Boolean fancy indexing `f[g.astype(bool)]`: the samples of f at the
voxels where the (0/1 valued) mask g is nonzero, in C order. -/
def maskSelectP {nx ny nz : ℕ} {α : Type} (f : Vol nx ny nz α) (g : Vol nx ny nz ℚ) :
    List α :=
  (allIdx nx ny nz).filterMap fun p =>
    if g p.1 p.2.1 p.2.2 ≠ 0 then some (f p.1 p.2.1 p.2.2) else none

theorem mem_allIdx {nx ny nz : ℕ} (i : Fin nx) (j : Fin ny) (k : Fin nz) :
    (i, j, k) ∈ allIdx nx ny nz := by
  simp only [allIdx, List.mem_flatMap, List.mem_map]
  exact ⟨i, List.mem_finRange i, j, List.mem_finRange j, ⟨k, List.mem_finRange k, rfl⟩⟩

theorem mem_allVals {nx ny nz : ℕ} {α : Type} (f : Vol nx ny nz α)
    (i : Fin nx) (j : Fin ny) (k : Fin nz) : f i j k ∈ allVals f :=
  List.mem_map.mpr ⟨(i, j, k), mem_allIdx i j k, rfl⟩

theorem allVals_exists {nx ny nz : ℕ} {α : Type} {f : Vol nx ny nz α} {x : α}
    (h : x ∈ allVals f) : ∃ i j k, x = f i j k := by
  obtain ⟨p, -, hp⟩ := List.mem_map.mp h
  exact ⟨p.1, p.2.1, p.2.2, hp.symm⟩

theorem allVals_ne_nil {nx ny nz : ℕ} {α : Type} (f : Vol nx ny nz α)
    (hx : 0 < nx) (hy : 0 < ny) (hz : 0 < nz) : allVals f ≠ [] :=
  List.ne_nil_of_mem (mem_allVals f ⟨0, hx⟩ ⟨0, hy⟩ ⟨0, hz⟩)

theorem maskSelectP_comp {nx ny nz : ℕ} {α β : Type} (f : Vol nx ny nz α)
    (g : α → β) (m : Vol nx ny nz ℚ) :
    maskSelectP (fun i j k => g (f i j k)) m = (maskSelectP f m).map g := by
  unfold maskSelectP
  rw [List.map_filterMap]
  apply List.filterMap_congr
  intro p _
  by_cases h : m p.1 p.2.1 p.2.2 ≠ 0 <;> simp [h]

theorem maskSelectP_eq_nil {nx ny nz : ℕ} {α : Type} (f : Vol nx ny nz α)
    {m : Vol nx ny nz ℚ} (hm : ∀ i j k, m i j k = 0) : maskSelectP f m = [] := by
  unfold maskSelectP
  apply List.filterMap_eq_nil_iff.mpr
  intro p _
  simp [hm]

/-- Total voxel getter with ℕ indices; out-of-range reads return 0.
(Only used at indices proved in range.) -/
def get3Q {nx ny nz : ℕ} (f : Vol nx ny nz ℚ) (a b c : ℕ) : ℚ :=
  if ha : a < nx then
    if hb : b < ny then
      if hc : c < nz then f ⟨a, ha⟩ ⟨b, hb⟩ ⟨c, hc⟩ else 0
    else 0
  else 0

/-- Total voxel getter with ℤ indices and zero padding outside the volume,
matching the zero-padded boundary of scipy.signal.medfilt. -/
def get3Z {nx ny nz : ℕ} (f : Vol nx ny nz ℚ) (a b c : ℤ) : ℚ :=
  if h : 0 ≤ a ∧ a < (nx : ℤ) ∧ 0 ≤ b ∧ b < (ny : ℤ) ∧ 0 ≤ c ∧ c < (nz : ℤ) then
    f ⟨a.toNat, by omega⟩ ⟨b.toNat, by omega⟩ ⟨c.toNat, by omega⟩
  else 0

/-- Total voxel getter for Fv volumes; out-of-range reads return NaN.
(Only used at indices proved in range.) -/
def get3F {nx ny nz : ℕ} (f : Vol nx ny nz Fv) (a b c : ℕ) : Fv :=
  if ha : a < nx then
    if hb : b < ny then
      if hc : c < nz then f ⟨a, ha⟩ ⟨b, hb⟩ ⟨c, hc⟩ else Fv.nan
    else Fv.nan
  else Fv.nan

/-- Wrap a phase value, given in units of pi, into the base interval
[-1, 1) (that is, [-pi, pi) radians): q - 2 * floor((q + 1) / 2). -/
def wrapHalf (q : ℚ) : ℚ := q - 2 * ⌊(q + 1) / 2⌋

/-- Modelled from the spec (section 4.5): the repository calls
skimage.restoration.unwrap_phase, whose source is not part of this
repository; the spec fixes only its contract (recover any smooth field, up
to one global multiple of 2 pi, when adjacent-sample true differences stay
below pi) and leaves the algorithm free.  This model unwraps sequentially
along the axes (axis 0 down the first column, then axis 1, then axis 2),
anchored at voxel (0,0,0); phases are in units of pi, so the period is 2.
On any constant field it is the identity, and it satisfies the contract. -/
def unwrapU {nx ny nz : ℕ} (w : Vol nx ny nz ℚ) : Vol nx ny nz ℚ := fun i j k =>
  get3Q w 0 0 0
    + (((List.range i.1).map fun t =>
        wrapHalf (get3Q w (t + 1) 0 0 - get3Q w t 0 0)).sum)
    + (((List.range j.1).map fun t =>
        wrapHalf (get3Q w i.1 (t + 1) 0 - get3Q w i.1 t 0)).sum)
    + (((List.range k.1).map fun t =>
        wrapHalf (get3Q w i.1 j.1 (t + 1) - get3Q w i.1 j.1 t)).sum)

/-- The three window offsets of a size-3 median filter. -/
def off3 : List ℤ := [-1, 0, 1]

/-- scipy.signal.medfilt with kernel_size 3 (an external dependency of
me_fmap.py, modelled from its documented semantics): at each voxel, the
median of the 3 x 3 x 3 zero-padded neighbourhood. -/
def medfilt3 {nx ny nz : ℕ} (f : Vol nx ny nz ℚ) : Vol nx ny nz ℚ := fun i j k =>
  medianQ (off3.flatMap fun da => off3.flatMap fun db => off3.map fun dc =>
    get3Z f ((i.1 : ℤ) + da) ((j.1 : ℤ) + db) ((k.1 : ℤ) + dc))

/-- np.gradient along axis 0 with scalar spacing h (an external dependency,
modelled from its documented semantics): central differences in the
interior, one-sided differences at the two boundary planes. -/
def npGradX {nx ny nz : ℕ} (f : Vol nx ny nz Fv) (h : ℚ) : Vol nx ny nz Fv :=
  fun i j k =>
    if i.1 = 0 then
      Fv.div (Fv.sub (get3F f 1 j.1 k.1) (get3F f 0 j.1 k.1)) (Fv.fin h)
    else if i.1 = nx - 1 then
      Fv.div (Fv.sub (get3F f i.1 j.1 k.1) (get3F f (i.1 - 1) j.1 k.1)) (Fv.fin h)
    else
      Fv.div (Fv.sub (get3F f (i.1 + 1) j.1 k.1) (get3F f (i.1 - 1) j.1 k.1))
        (Fv.fin (2 * h))

/-- np.gradient along axis 1 with scalar spacing h. -/
def npGradY {nx ny nz : ℕ} (f : Vol nx ny nz Fv) (h : ℚ) : Vol nx ny nz Fv :=
  fun i j k =>
    if j.1 = 0 then
      Fv.div (Fv.sub (get3F f i.1 1 k.1) (get3F f i.1 0 k.1)) (Fv.fin h)
    else if j.1 = ny - 1 then
      Fv.div (Fv.sub (get3F f i.1 j.1 k.1) (get3F f i.1 (j.1 - 1) k.1)) (Fv.fin h)
    else
      Fv.div (Fv.sub (get3F f i.1 (j.1 + 1) k.1) (get3F f i.1 (j.1 - 1) k.1))
        (Fv.fin (2 * h))

/-- np.gradient along axis 2 with scalar spacing h. -/
def npGradZ {nx ny nz : ℕ} (f : Vol nx ny nz Fv) (h : ℚ) : Vol nx ny nz Fv :=
  fun i j k =>
    if k.1 = 0 then
      Fv.div (Fv.sub (get3F f i.1 j.1 1) (get3F f i.1 j.1 0)) (Fv.fin h)
    else if k.1 = nz - 1 then
      Fv.div (Fv.sub (get3F f i.1 j.1 k.1) (get3F f i.1 j.1 (k.1 - 1))) (Fv.fin h)
    else
      Fv.div (Fv.sub (get3F f i.1 j.1 (k.1 + 1)) (get3F f i.1 j.1 (k.1 - 1)))
        (Fv.fin (2 * h))

/-- An IEEE-754 style float value with a real finite part, for the values
produced by np.log in the T2star computation. -/
inductive Rv where
  | fin (x : ℝ)
  | pinf
  | ninf
  | nan

namespace Rv

/-- IEEE multiplication on real float values (only the cases reached by the
T2star line are exercised; the table is the same as for Fv). -/
noncomputable def mul : Rv → Rv → Rv
  | nan, _ => nan
  | _, nan => nan
  | fin a, fin b => fin (a * b)
  | fin a, pinf => if a = 0 then nan else if 0 < a then pinf else ninf
  | fin a, ninf => if a = 0 then nan else if 0 < a then ninf else pinf
  | pinf, fin b => if b = 0 then nan else if 0 < b then pinf else ninf
  | ninf, fin b => if b = 0 then nan else if 0 < b then ninf else pinf
  | pinf, pinf => pinf
  | pinf, ninf => ninf
  | ninf, pinf => ninf
  | ninf, ninf => pinf

/-- IEEE division on real float values. -/
noncomputable def div : Rv → Rv → Rv
  | nan, _ => nan
  | _, nan => nan
  | fin a, fin b =>
      if b = 0 then (if a = 0 then nan else if 0 < a then pinf else ninf)
      else fin (a / b)
  | fin _, pinf => fin 0
  | fin _, ninf => fin 0
  | pinf, fin b => if b < 0 then ninf else pinf
  | ninf, fin b => if b < 0 then pinf else ninf
  | pinf, pinf => nan
  | pinf, ninf => nan
  | ninf, pinf => nan
  | ninf, ninf => nan

@[simp] theorem mul_left_nan (a : Rv) : mul nan a = nan := by
  cases a <;> rfl

@[simp] theorem mul_both_fin (a b : ℝ) : mul (fin a) (fin b) = fin (a * b) := rfl

@[simp] theorem div_right_nan (a : Rv) : div a nan = nan := by
  cases a <;> rfl

@[simp] theorem div_fin_ninf (a : ℝ) : div (fin a) ninf = fin 0 := rfl

theorem div_both_fin {b : ℝ} (a : ℝ) (hb : b ≠ 0) : div (fin a) (fin b) = fin (a / b) := by
  simp [div, hb]

end Rv

/-- np.log applied to an IEEE float with rational payload (the magnitude
ratio): NaN for negatives and NaN, -inf at 0, +inf at +inf, the real
logarithm on positive finite values. -/
noncomputable def npLog : Fv → Rv
  | Fv.nan => Rv.nan
  | Fv.ninf => Rv.nan
  | Fv.pinf => Rv.pinf
  | Fv.fin q => if q < 0 then Rv.nan else if q = 0 then Rv.ninf else Rv.fin (Real.log q)

@[simp] theorem npLog_nan : npLog Fv.nan = Rv.nan := rfl

@[simp] theorem npLog_fin_zero : npLog (Fv.fin 0) = Rv.ninf := by
  simp [npLog]

theorem npLog_fin_pos {q : ℚ} (h : 0 < q) : npLog (Fv.fin q) = Rv.fin (Real.log q) := by
  simp [npLog, not_lt.mpr h.le, h.ne.symm]

namespace MeFmap

/-- The in-memory inputs of me_fmap.main after loading (lines 46-63 of
me_fmap.py): the two echo magnitude volumes, the two raw phase volumes, the
two echo times in seconds, and the diagonal of the affine of the phase
image (the only entries the pipeline reads, at lines 102-104). -/
structure MEInput (nx ny nz : ℕ) where
  mag0 : Vol nx ny nz ℚ
  mag1 : Vol nx ny nz ℚ
  phs0 : Vol nx ny nz ℚ
  phs1 : Vol nx ny nz ℚ
  te0 : ℚ
  te1 : ℚ
  T00 : ℚ
  T11 : ℚ
  T22 : ℚ

variable {nx ny nz : ℕ}

/-- Lines 66-68: th = np.max(mag_0) * 0.1; mask = (mag_0 > th).astype(float). -/
def mask (inp : MEInput nx ny nz) : Vol nx ny nz ℚ := fun i j k =>
  if npMax (allVals inp.mag0) * (1 / 10) < inp.mag0 i j k then 1 else 0

/-- Line 71: dTE = te[1] - te[0], in seconds. -/
def dTE (inp : MEInput nx ny nz) : ℚ := inp.te1 - inp.te0

/-- Line 74: T2star_ms = dTE * 1e3 / np.log(mag_0 / mag_1) * mask.  The
magnitude ratio is exact rational IEEE division; np.log moves the value to
the real-payload type Rv. -/
noncomputable def T2star_ms (inp : MEInput nx ny nz) : Vol nx ny nz Rv := fun i j k =>
  Rv.mul
    (Rv.div (Rv.fin ((dTE inp : ℝ) * 1000))
      (npLog (Fv.div (Fv.fin (inp.mag0 i j k)) (Fv.fin (inp.mag1 i j k)))))
    (Rv.fin ((mask inp i j k : ℚ) : ℝ))

/-- Lines 77-81: phase rescaling (phs * np.pi / 4096, stored here in units
of pi, hence * (1/4096)) followed by the echo-2 minus echo-1 difference. -/
def dphi_diff (inp : MEInput nx ny nz) : Vol nx ny nz ℚ := fun i j k =>
  inp.phs1 i j k * (1 / 4096) - inp.phs0 i j k * (1 / 4096)

/-- Line 84: dphi = unwrap_phase(dphi), through the spec-modelled unwrapper. -/
def dphi_unwrapped (inp : MEInput nx ny nz) : Vol nx ny nz ℚ :=
  unwrapU (dphi_diff inp)

/-- Line 88: dphi = medfilt(dphi, 3) * mask. -/
def dphi_filt (inp : MEInput nx ny nz) : Vol nx ny nz ℚ := fun i j k =>
  medfilt3 (dphi_unwrapped inp) i j k * mask inp i j k

/-- Line 92: dphi_med = np.median(dphi[mask.astype(bool)]).  NaN when the
mask selects nothing. -/
def dphi_med (inp : MEInput nx ny nz) : Fv :=
  npMedian (maskSelectP (dphi_filt inp) (mask inp))

/-- Line 93: dphi -= dphi_med, the volume the script saves as dphi.nii.gz. -/
def dphi (inp : MEInput nx ny nz) : Vol nx ny nz Fv := fun i j k =>
  Fv.sub (Fv.fin (dphi_filt inp i j k)) (dphi_med inp)

/-- Line 96: dB0_rad_s = dphi / dTE * mask (in units of pi per second). -/
def dB0_rad_s (inp : MEInput nx ny nz) : Vol nx ny nz Fv := fun i j k =>
  Fv.mul (Fv.div (dphi inp i j k) (Fv.fin (dTE inp))) (Fv.fin (mask inp i j k))

/-- Line 99: dB0_Hz = dB0_rad_s / (2.0 * np.pi).  In units of pi the stored
rad/s coefficient q stands for q * pi rad/s, so the Hz value is q / 2; the
Hz map holds plain absolute numbers. -/
def dB0_Hz (inp : MEInput nx ny nz) : Vol nx ny nz Fv := fun i j k =>
  Fv.div (dB0_rad_s inp i j k) (Fv.fin 2)

/-- Lines 102-104: voxel dimensions in meters from the affine diagonal. -/
def dx (inp : MEInput nx ny nz) : ℚ := |inp.T00| / 1000

/-- Voxel dimension along axis 1 in meters. -/
def dy (inp : MEInput nx ny nz) : ℚ := |inp.T11| / 1000

/-- Voxel dimension along axis 2 in meters. -/
def dz (inp : MEInput nx ny nz) : ℚ := |inp.T22| / 1000

/-- Lines 108-112: gamma_1H = 42.58e3 Hz/mT; first gradient component of
np.gradient(dB0_Hz, dx, dy, dz), scaled by mask / gamma_1H. -/
def gx (inp : MEInput nx ny nz) : Vol nx ny nz Fv := fun i j k =>
  Fv.mul (npGradX (dB0_Hz inp) (dx inp) i j k)
    (Fv.div (Fv.fin (mask inp i j k)) (Fv.fin 42580))

/-- Line 113: second gradient component, scaled by mask / gamma_1H. -/
def gy (inp : MEInput nx ny nz) : Vol nx ny nz Fv := fun i j k =>
  Fv.mul (npGradY (dB0_Hz inp) (dy inp) i j k)
    (Fv.div (Fv.fin (mask inp i j k)) (Fv.fin 42580))

/-- Line 114: third gradient component, scaled by mask / gamma_1H. -/
def gz (inp : MEInput nx ny nz) : Vol nx ny nz Fv := fun i j k =>
  Fv.mul (npGradZ (dB0_Hz inp) (dz inp) i j k)
    (Fv.div (Fv.fin (mask inp i j k)) (Fv.fin 42580))

/-- Line 117: grad_dB0 = np.stack([gx, gy, gz], axis=3), the 3-vector field
gradient saved as grad_dB0.nii.gz. -/
def grad_dB0 (inp : MEInput nx ny nz) : Vol nx ny nz (Fv × Fv × Fv) := fun i j k =>
  (gx inp i j k, gy inp i j k, gz inp i j k)

/-- The mask volume only holds 0 and 1. -/
theorem mask_eq_zero_or_one (inp : MEInput nx ny nz) (i : Fin nx) (j : Fin ny)
    (k : Fin nz) : mask inp i j k = 0 ∨ mask inp i j k = 1 := by
  unfold mask
  by_cases h : npMax (allVals inp.mag0) * (1 / 10) < inp.mag0 i j k
  · right
    rw [if_pos h]
  · left
    rw [if_neg h]

end MeFmap

/-- Modelled from the spec (section 4.5): the wrapping operator the round
trip property is stated against, wrap(x) = mod(x + pi, 2 pi) - pi, with mod
the floor-based remainder; its range is the interval from -pi (included) to
pi (excluded). -/
noncomputable def wrapPi (x : ℝ) : ℝ :=
  (x + Real.pi) - 2 * Real.pi * ⌊(x + Real.pi) / (2 * Real.pi)⌋ - Real.pi

/-- Modelled from the spec (section 4.5): a sequential neighbor unwrapper
over a 1-D line of samples, the reference shape of the contract (any
algorithm is allowed; adjacency is along the line).  Each step adds the
wrapped difference of consecutive wrapped samples. -/
noncomputable def unwrapSeq (w : ℕ → ℝ) : ℕ → ℝ
  | 0 => w 0
  | n + 1 => unwrapSeq w n + wrapPi (w (n + 1) - w n)

theorem two_pi_pos : (0 : ℝ) < 2 * Real.pi := by positivity

theorem wrapPi_sub (x : ℝ) :
    wrapPi x = x - 2 * Real.pi * ⌊(x + Real.pi) / (2 * Real.pi)⌋ := by
  unfold wrapPi
  ring

theorem wrapPi_add_int (x : ℝ) (m : ℤ) :
    wrapPi (x + 2 * Real.pi * (m : ℝ)) = wrapPi x := by
  have hpi : (2 * Real.pi) ≠ 0 := ne_of_gt two_pi_pos
  have harg : (x + 2 * Real.pi * (m : ℝ) + Real.pi) / (2 * Real.pi)
      = (x + Real.pi) / (2 * Real.pi) + (m : ℝ) := by
    field_simp
    ring
  unfold wrapPi
  rw [harg, Int.floor_add_int]
  push_cast
  ring

theorem wrapPi_eq_self {x : ℝ} (h1 : -Real.pi ≤ x) (h2 : x < Real.pi) :
    wrapPi x = x := by
  have hfl : ⌊(x + Real.pi) / (2 * Real.pi)⌋ = 0 := by
    rw [Int.floor_eq_zero_iff, Set.mem_Ico]
    constructor
    · exact div_nonneg (by linarith) (le_of_lt two_pi_pos)
    · rw [div_lt_one two_pi_pos]
      linarith
  rw [wrapPi_sub, hfl]
  push_cast
  ring

/-- C1: Phase-unwrap round trip.  For every synthetic smooth phase field
(here a 1-D line of samples, the shape the adjacency condition of the
contract is stated over) whose adjacent-sample true differences are
strictly below pi, unwrapping the field wrapped by
wrap(x) = mod(x + pi, 2 pi) - pi recovers the field up to one additive
global integer multiple of 2 pi. -/
theorem C1_unwrap_round_trip (φ : ℕ → ℝ)
    (h : ∀ i, |φ (i + 1) - φ i| < Real.pi) :
    ∃ k : ℤ, ∀ i,
      unwrapSeq (fun t => wrapPi (φ t)) i = φ i + 2 * Real.pi * (k : ℝ) := by
  refine ⟨-⌊(φ 0 + Real.pi) / (2 * Real.pi)⌋, ?_⟩
  intro i
  induction i with
  | zero =>
    simp only [unwrapSeq]
    rw [wrapPi_sub]
    push_cast
    ring
  | succ n ih =>
    have hd := abs_lt.mp (h n)
    have h1 : wrapPi (φ (n + 1)) - wrapPi (φ n)
        = (φ (n + 1) - φ n)
          + 2 * Real.pi * ((-⌊(φ (n + 1) + Real.pi) / (2 * Real.pi)⌋
              + ⌊(φ n + Real.pi) / (2 * Real.pi)⌋ : ℤ) : ℝ) := by
      rw [wrapPi_sub, wrapPi_sub]
      push_cast
      ring
    have h2 : wrapPi (wrapPi (φ (n + 1)) - wrapPi (φ n)) = φ (n + 1) - φ n := by
      rw [h1, wrapPi_add_int]
      exact wrapPi_eq_self (by linarith [hd.1]) hd.2
    simp only [unwrapSeq]
    rw [h2, ih]
    ring

/-- Witness for C1 at the concrete constant-zero field: the adjacency
hypothesis holds and the round trip recovers the field up to one global
multiple of 2 pi. -/
theorem C1_unwrap_round_trip_witness :
    (∀ i : ℕ, |(fun _ : ℕ => (0 : ℝ)) (i + 1) - (fun _ : ℕ => (0 : ℝ)) i| < Real.pi)
    ∧ ∃ k : ℤ, ∀ i,
        unwrapSeq (fun t => wrapPi ((fun _ : ℕ => (0 : ℝ)) t)) i
          = (fun _ : ℕ => (0 : ℝ)) i + 2 * Real.pi * (k : ℝ) :=
  ⟨fun _ => by simpa using Real.pi_pos,
   C1_unwrap_round_trip (fun _ => 0) (fun _ => by simpa using Real.pi_pos)⟩

/-- Concrete 3 x 3 x 3 input: first-echo magnitude 1000 on the seven voxels
with at least two coordinates equal to 1 (the six face centers and the
center), 0 elsewhere, so the corner (0,0,0) is outside the mask; constant
raw phases 0 and 2048 (phase difference pi/2 radians everywhere); echo
times 0 and 2 ms; affine diagonal 2 mm. -/
def inpB : MeFmap.MEInput 3 3 3 where
  mag0 := fun i j k =>
    if 2 ≤ ((if i.1 = 1 then 1 else 0) + (if j.1 = 1 then 1 else 0)
        + (if k.1 = 1 then 1 else 0) : ℕ) then 1000 else 0
  mag1 := fun _ _ _ => 500
  phs0 := fun _ _ _ => 0
  phs1 := fun _ _ _ => 2048
  te0 := 0
  te1 := 1 / 500
  T00 := 2
  T11 := 2
  T22 := 2

/-- Concrete 2 x 2 x 2 input: constant magnitudes 1000 and 500, zero
phases, echo times 1 ms and 3 ms (dTE = 2 ms), affine diagonal 2 mm. -/
def inpC : MeFmap.MEInput 2 2 2 where
  mag0 := fun _ _ _ => 1000
  mag1 := fun _ _ _ => 500
  phs0 := fun _ _ _ => 0
  phs1 := fun _ _ _ => 0
  te0 := 1 / 1000
  te1 := 3 / 1000
  T00 := 2
  T11 := 2
  T22 := 2

/-- Concrete degenerate 2 x 2 x 2 input: the first-echo magnitude is
identically zero (max(M0) = 0), the second-echo magnitude is 1, phases are
zero, dTE = 2 ms. -/
def inpD : MeFmap.MEInput 2 2 2 where
  mag0 := fun _ _ _ => 0
  mag1 := fun _ _ _ => 1
  phs0 := fun _ _ _ => 0
  phs1 := fun _ _ _ => 0
  te0 := 0
  te1 := 1 / 500
  T00 := 2
  T11 := 2
  T22 := 2

/-- Concrete 2 x 2 x 2 input with a single bright voxel: magnitudes 1000
and 500 at voxel (0,0,0) and 0 at every other voxel (a zero background), so
every other voxel is outside the mask and its magnitude ratio is 0/0. -/
def inpE : MeFmap.MEInput 2 2 2 where
  mag0 := fun i j k => if i.1 = 0 ∧ j.1 = 0 ∧ k.1 = 0 then 1000 else 0
  mag1 := fun i j k => if i.1 = 0 ∧ j.1 = 0 ∧ k.1 = 0 then 500 else 0
  phs0 := fun _ _ _ => 0
  phs1 := fun _ _ _ => 0
  te0 := 1 / 1000
  te1 := 3 / 1000
  T00 := 2
  T11 := 2
  T22 := 2

/-- Concrete 2 x 2 x 2 input with non-increasing echo times: te = (3 ms,
1 ms), so dTE = -2 ms is degenerate; magnitudes constant 1000 and 500,
phases zero. -/
def inpF : MeFmap.MEInput 2 2 2 where
  mag0 := fun _ _ _ => 1000
  mag1 := fun _ _ _ => 500
  phs0 := fun _ _ _ => 0
  phs1 := fun _ _ _ => 0
  te0 := 3 / 1000
  te1 := 1 / 1000
  T00 := 2
  T11 := 2
  T22 := 2

set_option maxRecDepth 1000000

theorem npMax_const {l : List ℚ} {c : ℚ} (h : l ≠ []) (hc : ∀ x ∈ l, x = c) :
    npMax l = c :=
  hc _ (npMax_mem h)

/-- C3: Mask invariant.  For every nonempty input magnitude volume (a
magnitude image is nonnegative by nature), the signal mask is 1 at a voxel
exactly when the first-echo magnitude strictly exceeds 0.1 times its
maximum over the volume, and the mask is identically 0 exactly when that
maximum is 0. -/
theorem C3_mask_invariant {nx ny nz : ℕ} (inp : MeFmap.MEInput nx ny nz)
    (hx : 0 < nx) (hy : 0 < ny) (hz : 0 < nz)
    (hnn : ∀ i j k, 0 ≤ inp.mag0 i j k) :
    (∀ i j k, MeFmap.mask inp i j k = 1 ↔
      npMax (allVals inp.mag0) * (1 / 10) < inp.mag0 i j k)
    ∧ ((∀ i j k, MeFmap.mask inp i j k = 0) ↔ npMax (allVals inp.mag0) = 0) := by
  constructor
  · intro i j k
    unfold MeFmap.mask
    by_cases h : npMax (allVals inp.mag0) * (1 / 10) < inp.mag0 i j k
    · rw [if_pos h]
      exact iff_of_true rfl h
    · rw [if_neg h]
      exact iff_of_false (by norm_num) h
  · constructor
    · intro hall
      obtain ⟨i, j, k, hijk⟩ :=
        allVals_exists (npMax_mem (allVals_ne_nil inp.mag0 hx hy hz))
      have h0 : ¬ npMax (allVals inp.mag0) * (1 / 10) < inp.mag0 i j k := by
        intro hlt
        have hm := hall i j k
        unfold MeFmap.mask at hm
        rw [if_pos hlt] at hm
        norm_num at hm
      have hle := not_lt.mp h0
      rw [← hijk] at hle
      have hge : 0 ≤ npMax (allVals inp.mag0) := by
        rw [hijk]
        exact hnn i j k
      linarith
    · intro hmax i j k
      have hle : inp.mag0 i j k ≤ 0 := by
        have h := le_npMax (mem_allVals inp.mag0 i j k)
        rw [hmax] at h
        exact h
      unfold MeFmap.mask
      rw [if_neg]
      rw [hmax, zero_mul]
      exact not_lt.mpr hle

/-- Witness for C3 at the concrete constant-magnitude input inpC. -/
theorem C3_mask_invariant_witness :
    ((0 : ℕ) < 2 ∧ ∀ i j k : Fin 2, (0 : ℚ) ≤ inpC.mag0 i j k)
    ∧ ((∀ i j k : Fin 2, MeFmap.mask inpC i j k = 1 ↔
          npMax (allVals inpC.mag0) * (1 / 10) < inpC.mag0 i j k)
        ∧ ((∀ i j k : Fin 2, MeFmap.mask inpC i j k = 0)
            ↔ npMax (allVals inpC.mag0) = 0)) :=
  ⟨⟨by decide, by decide⟩,
   C3_mask_invariant inpC (by decide) (by decide) (by decide) (by decide)⟩

theorem get3F_in_range {nx ny nz : ℕ} (f : Vol nx ny nz Fv) {a b c : ℕ}
    (ha : a < nx) (hb : b < ny) (hc : c < nz) :
    get3F f a b c = f ⟨a, ha⟩ ⟨b, hb⟩ ⟨c, hc⟩ := by
  unfold get3F
  rw [dif_pos ha, dif_pos hb, dif_pos hc]

theorem npGradX_nan {nx ny nz : ℕ} (f : Vol nx ny nz Fv) (h : ℚ) (hn : 2 ≤ nx)
    (hf : ∀ i j k, f i j k = Fv.nan) (i : Fin nx) (j : Fin ny) (k : Fin nz) :
    npGradX f h i j k = Fv.nan := by
  have hi := i.2
  have hget : ∀ a, a < nx → get3F f a j.1 k.1 = Fv.nan := fun a ha => by
    rw [get3F_in_range f ha j.2 k.2]
    exact hf _ _ _
  unfold npGradX
  by_cases h0 : i.1 = 0
  · rw [if_pos h0, hget 1 (by omega), hget 0 (by omega), Fv.sub_nan, Fv.div_nan_left]
  · rw [if_neg h0]
    by_cases hend : i.1 = nx - 1
    · rw [if_pos hend, hget i.1 (by omega), hget (i.1 - 1) (by omega),
        Fv.sub_nan, Fv.div_nan_left]
    · rw [if_neg hend, hget (i.1 + 1) (by omega), hget (i.1 - 1) (by omega),
        Fv.sub_nan, Fv.div_nan_left]

theorem npGradY_nan {nx ny nz : ℕ} (f : Vol nx ny nz Fv) (h : ℚ) (hn : 2 ≤ ny)
    (hf : ∀ i j k, f i j k = Fv.nan) (i : Fin nx) (j : Fin ny) (k : Fin nz) :
    npGradY f h i j k = Fv.nan := by
  have hj := j.2
  have hget : ∀ b, b < ny → get3F f i.1 b k.1 = Fv.nan := fun b hb => by
    rw [get3F_in_range f i.2 hb k.2]
    exact hf _ _ _
  unfold npGradY
  by_cases h0 : j.1 = 0
  · rw [if_pos h0, hget 1 (by omega), hget 0 (by omega), Fv.sub_nan, Fv.div_nan_left]
  · rw [if_neg h0]
    by_cases hend : j.1 = ny - 1
    · rw [if_pos hend, hget j.1 (by omega), hget (j.1 - 1) (by omega),
        Fv.sub_nan, Fv.div_nan_left]
    · rw [if_neg hend, hget (j.1 + 1) (by omega), hget (j.1 - 1) (by omega),
        Fv.sub_nan, Fv.div_nan_left]

theorem npGradZ_nan {nx ny nz : ℕ} (f : Vol nx ny nz Fv) (h : ℚ) (hn : 2 ≤ nz)
    (hf : ∀ i j k, f i j k = Fv.nan) (i : Fin nx) (j : Fin ny) (k : Fin nz) :
    npGradZ f h i j k = Fv.nan := by
  have hk := k.2
  have hget : ∀ c, c < nz → get3F f i.1 j.1 c = Fv.nan := fun c hc => by
    rw [get3F_in_range f i.2 j.2 hc]
    exact hf _ _ _
  unfold npGradZ
  by_cases h0 : k.1 = 0
  · rw [if_pos h0, hget 1 (by omega), hget 0 (by omega), Fv.sub_nan, Fv.div_nan_left]
  · rw [if_neg h0]
    by_cases hend : k.1 = nz - 1
    · rw [if_pos hend, hget k.1 (by omega), hget (k.1 - 1) (by omega),
        Fv.sub_nan, Fv.div_nan_left]
    · rw [if_neg hend, hget (k.1 + 1) (by omega), hget (k.1 - 1) (by omega),
        Fv.sub_nan, Fv.div_nan_left]

/-- Counterexample to C2 as stated: at the concrete degenerate input inpD
(first-echo magnitude identically zero), the rad/s field map and the
gradient are NaN at voxel (0,0,0), not zero — np.median of the empty
in-mask selection is NaN, and NaN times the zero mask is NaN. -/
theorem C2_degenerate_counterexample :
    (∀ i j k : Fin 2, inpD.mag0 i j k = 0)
    ∧ MeFmap.dB0_rad_s inpD 0 0 0 = Fv.nan
    ∧ MeFmap.dB0_rad_s inpD 0 0 0 ≠ Fv.fin 0
    ∧ MeFmap.dB0_Hz inpD 0 0 0 ≠ Fv.fin 0
    ∧ MeFmap.grad_dB0 inpD 0 0 0 ≠ (Fv.fin 0, Fv.fin 0, Fv.fin 0) := by
  with_unfolding_all decide

/-- C2 (amended): for every input whose first-echo magnitude volume is all
zero and whose second-echo magnitude is positive (on a grid of at least 2
voxels per axis, the domain of np.gradient), the pipeline raises no error
(every stage is total and is evaluated here) and produces an all-zero mask
and an all-zero T2star map; but the rad/s map, the Hz map and the field
gradient are NaN at every voxel, because the in-mask median of the empty
selection is NaN, the median subtraction makes the whole saved phase
difference NaN, and NaN times the zero mask stays NaN. -/
theorem C2_degenerate_amended {nx ny nz : ℕ} (inp : MeFmap.MEInput nx ny nz)
    (hx : 2 ≤ nx) (hy : 2 ≤ ny) (hz : 2 ≤ nz)
    (h0 : ∀ i j k, inp.mag0 i j k = 0)
    (h1 : ∀ i j k, 0 < inp.mag1 i j k) :
    (∀ i j k, MeFmap.mask inp i j k = 0)
    ∧ (∀ i j k, MeFmap.T2star_ms inp i j k = Rv.fin 0)
    ∧ (∀ i j k, MeFmap.dB0_rad_s inp i j k = Fv.nan)
    ∧ (∀ i j k, MeFmap.dB0_Hz inp i j k = Fv.nan)
    ∧ (∀ i j k, MeFmap.grad_dB0 inp i j k = (Fv.nan, Fv.nan, Fv.nan)) := by
  have hnpmax : npMax (allVals inp.mag0) = 0 := by
    apply npMax_const (allVals_ne_nil inp.mag0 (by omega) (by omega) (by omega))
    intro x hxm
    obtain ⟨i, j, k, rfl⟩ := allVals_exists hxm
    exact h0 i j k
  have hmask : ∀ i j k, MeFmap.mask inp i j k = 0 := by
    intro i j k
    unfold MeFmap.mask
    rw [if_neg]
    rw [hnpmax, h0 i j k, zero_mul]
    exact lt_irrefl 0
  have ht2 : ∀ i j k, MeFmap.T2star_ms inp i j k = Rv.fin 0 := by
    intro i j k
    unfold MeFmap.T2star_ms
    rw [h0 i j k, Fv.div_fin_fin 0 (ne_of_gt (h1 i j k)), zero_div, npLog_fin_zero,
      Rv.div_fin_ninf, hmask i j k, Rv.mul_both_fin]
    norm_num
  have hfilt : ∀ i j k, MeFmap.dphi_filt inp i j k = 0 := by
    intro i j k
    unfold MeFmap.dphi_filt
    rw [hmask i j k, mul_zero]
  have hmed : MeFmap.dphi_med inp = Fv.nan := by
    unfold MeFmap.dphi_med
    rw [maskSelectP_eq_nil _ hmask]
    rfl
  have hdphi : ∀ i j k, MeFmap.dphi inp i j k = Fv.nan := by
    intro i j k
    unfold MeFmap.dphi
    rw [hmed, Fv.sub_fin_nan]
  have hrad : ∀ i j k, MeFmap.dB0_rad_s inp i j k = Fv.nan := by
    intro i j k
    unfold MeFmap.dB0_rad_s
    rw [hdphi i j k, Fv.div_nan_left, Fv.mul_nan_left]
  have hhz : ∀ i j k, MeFmap.dB0_Hz inp i j k = Fv.nan := by
    intro i j k
    unfold MeFmap.dB0_Hz
    rw [hrad i j k, Fv.div_nan_left]
  refine ⟨hmask, ht2, hrad, hhz, ?_⟩
  intro i j k
  unfold MeFmap.grad_dB0 MeFmap.gx MeFmap.gy MeFmap.gz
  rw [npGradX_nan _ _ hx hhz i j k, npGradY_nan _ _ hy hhz i j k,
    npGradZ_nan _ _ hz hhz i j k, Fv.mul_nan_left]

/-- Witness for C2 (amended) at the concrete degenerate input inpD. -/
theorem C2_degenerate_amended_witness :
    ((∀ i j k : Fin 2, inpD.mag0 i j k = 0) ∧ (∀ i j k : Fin 2, 0 < inpD.mag1 i j k))
    ∧ ((∀ i j k : Fin 2, MeFmap.mask inpD i j k = 0)
      ∧ (∀ i j k : Fin 2, MeFmap.T2star_ms inpD i j k = Rv.fin 0)
      ∧ (∀ i j k : Fin 2, MeFmap.dB0_rad_s inpD i j k = Fv.nan)
      ∧ (∀ i j k : Fin 2, MeFmap.dB0_Hz inpD i j k = Fv.nan)
      ∧ (∀ i j k : Fin 2, MeFmap.grad_dB0 inpD i j k = (Fv.nan, Fv.nan, Fv.nan))) :=
  ⟨⟨by decide, by decide⟩,
   C2_degenerate_amended inpD (by norm_num) (by norm_num) (by norm_num)
     (by decide) (by decide)⟩

/-- Counterexample to C4 as stated: at the concrete input inpE the voxel
(0,0,1) lies outside the mask but its T2star value is NaN, not zero: both
magnitudes vanish there, the ratio 0/0 is NaN, and NaN times the zero mask
stays NaN.  So T2star is not "zero outside the mask" in general. -/
theorem C4_T2star_counterexample :
    MeFmap.mask inpE 0 0 1 = 0
    ∧ MeFmap.T2star_ms inpE 0 0 1 = Rv.nan
    ∧ Rv.nan ≠ Rv.fin 0 := by
  refine ⟨by with_unfolding_all decide, ?_, fun h => Rv.noConfusion h⟩
  unfold MeFmap.T2star_ms
  have hratio : Fv.div (Fv.fin (inpE.mag0 0 0 1)) (Fv.fin (inpE.mag1 0 0 1))
      = Fv.nan := by
    with_unfolding_all decide
  rw [hratio, npLog_nan, Rv.div_right_nan, Rv.mul_left_nan]

/-- Helper for the out-of-mask T2star dichotomy: dividing a finite value by
the finite 0 gives NaN or a signed infinity depending on the sign of the
numerator, and each of these times the finite 0 is NaN. -/
theorem Rv.div_fin_zero_mul_fin_zero (c : ℝ) :
    Rv.mul (Rv.div (Rv.fin c) (Rv.fin 0)) (Rv.fin 0) = Rv.nan := by
  by_cases hc : c = 0
  · simp [Rv.div, hc]
  · by_cases hpos : 0 < c
    · simp [Rv.div, Rv.mul, hc, hpos]
    · simp [Rv.div, Rv.mul, hc, hpos]

/-- C4 (amended): for every input and voxel, T2star equals
dTE * 1e3 / ln(M0/M1) times the mask under IEEE semantics.  Outside the
mask (for nonnegative magnitudes) the value is 0 exactly when
M0[v] is different from M1[v], and NaN exactly when M0[v] = M1[v] — both
when the two magnitudes vanish (0/0 is NaN) and when the ratio is 1
(ln 1 = 0, and the division by 0 followed by the multiplication with the
zero mask gives NaN).  In particular, for constant magnitudes 1000 at echo
0 and 500 at echo 1 with dTE = 0.002 s, every voxel is inside the mask and
T2star equals 0.002 / ln(1000/500) * 1000 = 2 / ln 2 milliseconds, which
lies strictly between 2.88 and 2.89 (about 2.885 ms). -/
theorem C4_T2star_amended {nx ny nz : ℕ} (inp : MeFmap.MEInput nx ny nz) :
    (∀ i j k, MeFmap.T2star_ms inp i j k
        = Rv.mul (Rv.div (Rv.fin ((MeFmap.dTE inp : ℝ) * 1000))
            (npLog (Fv.div (Fv.fin (inp.mag0 i j k)) (Fv.fin (inp.mag1 i j k)))))
            (Rv.fin ((MeFmap.mask inp i j k : ℚ) : ℝ)))
    ∧ (∀ i j k, MeFmap.mask inp i j k = 0 →
        0 ≤ inp.mag0 i j k → 0 ≤ inp.mag1 i j k →
        MeFmap.T2star_ms inp i j k
          = if inp.mag0 i j k = inp.mag1 i j k then Rv.nan else Rv.fin 0)
    ∧ (0 < nx → 0 < ny → 0 < nz →
        (∀ i j k, inp.mag0 i j k = 1000) → (∀ i j k, inp.mag1 i j k = 500) →
        MeFmap.dTE inp = 1 / 500 →
        ∀ i j k, MeFmap.mask inp i j k = 1
          ∧ MeFmap.T2star_ms inp i j k = Rv.fin (2 / Real.log 2)
          ∧ (2.88 : ℝ) < 2 / Real.log 2 ∧ (2 / Real.log 2 : ℝ) < 2.89) := by
  refine ⟨fun i j k => rfl, ?_, ?_⟩
  · intro i j k hmask h0 h1
    unfold MeFmap.T2star_ms
    rw [hmask, Rat.cast_zero]
    by_cases hb : inp.mag1 i j k = 0
    · by_cases ha : inp.mag0 i j k = 0
      · rw [if_pos (by rw [ha, hb]), ha, hb,
          show Fv.div (Fv.fin 0) (Fv.fin 0) = Fv.nan by simp [Fv.div],
          npLog_nan, Rv.div_right_nan, Rv.mul_left_nan]
      · have hapos : 0 < inp.mag0 i j k := lt_of_le_of_ne h0 (Ne.symm ha)
        rw [if_neg (by rw [hb]; exact ha), hb,
          show Fv.div (Fv.fin (inp.mag0 i j k)) (Fv.fin 0) = Fv.pinf by
            simp [Fv.div, ha, hapos],
          show npLog Fv.pinf = Rv.pinf from rfl,
          show Rv.div (Rv.fin ((MeFmap.dTE inp : ℝ) * 1000)) Rv.pinf = Rv.fin 0
            from rfl,
          Rv.mul_both_fin, zero_mul]
    · have hbpos : 0 < inp.mag1 i j k := lt_of_le_of_ne h1 (Ne.symm hb)
      rw [Fv.div_fin_fin _ hb]
      by_cases hab : inp.mag0 i j k = inp.mag1 i j k
      · rw [if_pos hab, hab, div_self hb, npLog_fin_pos one_pos, Rat.cast_one,
          Real.log_one]
        exact Rv.div_fin_zero_mul_fin_zero _
      · rw [if_neg hab]
        by_cases ha : inp.mag0 i j k = 0
        · rw [ha, zero_div, npLog_fin_zero, Rv.div_fin_ninf, Rv.mul_both_fin,
            zero_mul]
        · have hapos : 0 < inp.mag0 i j k := lt_of_le_of_ne h0 (Ne.symm ha)
          have hrpos : 0 < inp.mag0 i j k / inp.mag1 i j k := div_pos hapos hbpos
          have hrne : inp.mag0 i j k / inp.mag1 i j k ≠ 1 := by
            intro h
            apply hab
            field_simp at h
            exact h
          have hrposR : (0 : ℝ) < ((inp.mag0 i j k / inp.mag1 i j k : ℚ) : ℝ) := by
            exact_mod_cast hrpos
          have hlogne :
              Real.log ((inp.mag0 i j k / inp.mag1 i j k : ℚ) : ℝ) ≠ 0 := by
            intro h
            rcases Real.log_eq_zero.mp h with h2 | h2 | h2
            · exact absurd (show inp.mag0 i j k / inp.mag1 i j k = 0 by
                exact_mod_cast h2) (ne_of_gt hrpos)
            · exact hrne (by exact_mod_cast h2)
            · rw [h2] at hrposR
              linarith
          rw [npLog_fin_pos hrpos, Rv.div_both_fin _ hlogne, Rv.mul_both_fin,
            mul_zero]
  · intro hx hy hz h0 h1 hte
    have hlogpos : (0 : ℝ) < Real.log 2 := Real.log_pos (by norm_num)
    have hnpmax : npMax (allVals inp.mag0) = 1000 := by
      apply npMax_const (allVals_ne_nil inp.mag0 hx hy hz)
      intro x hxm
      obtain ⟨i, j, k, rfl⟩ := allVals_exists hxm
      exact h0 i j k
    have hmask : ∀ i j k, MeFmap.mask inp i j k = 1 := by
      intro i j k
      unfold MeFmap.mask
      rw [if_pos]
      rw [hnpmax, h0 i j k]
      norm_num
    intro i j k
    refine ⟨hmask i j k, ?_, ?_, ?_⟩
    · unfold MeFmap.T2star_ms
      rw [h0 i j k, h1 i j k, Fv.div_fin_fin 1000 (by norm_num),
        show (1000 : ℚ) / 500 = 2 by norm_num, npLog_fin_pos (by norm_num),
        show Real.log ((2 : ℚ) : ℝ) = Real.log 2 by norm_num,
        Rv.div_both_fin _ (ne_of_gt hlogpos), hmask i j k, Rv.mul_both_fin, hte]
      congr 1
      push_cast
      ring
    · rw [lt_div_iff₀ hlogpos]
      nlinarith [Real.log_two_lt_d9]
    · rw [div_lt_iff₀ hlogpos]
      nlinarith [Real.log_two_gt_d9]

/-- Witness for C4 (amended): the NaN branch of the out-of-mask dichotomy
at a 0/0 voxel of inpE, the zero branch at the corner of inpB (magnitudes
0 and 500), and the constant-magnitude instance at inpC. -/
theorem C4_T2star_amended_witness :
    (MeFmap.mask inpE 0 0 1 = 0 ∧ inpE.mag0 0 0 1 = inpE.mag1 0 0 1
      ∧ MeFmap.T2star_ms inpE 0 0 1 = Rv.nan)
    ∧ (MeFmap.mask inpB 0 0 0 = 0 ∧ inpB.mag0 0 0 0 ≠ inpB.mag1 0 0 0
      ∧ MeFmap.T2star_ms inpB 0 0 0 = Rv.fin 0)
    ∧ (MeFmap.dTE inpC = 1 / 500
      ∧ MeFmap.mask inpC 0 0 0 = 1
      ∧ MeFmap.T2star_ms inpC 0 0 0 = Rv.fin (2 / Real.log 2)
      ∧ (2.88 : ℝ) < 2 / Real.log 2 ∧ (2 / Real.log 2 : ℝ) < 2.89) := by
  refine ⟨⟨by with_unfolding_all decide, by with_unfolding_all decide, ?_⟩,
    ⟨by with_unfolding_all decide, by with_unfolding_all decide, ?_⟩,
    by with_unfolding_all decide, ?_⟩
  · have h := (C4_T2star_amended inpE).2.1 0 0 1 (by with_unfolding_all decide)
      (by with_unfolding_all decide) (by with_unfolding_all decide)
    rwa [if_pos (by with_unfolding_all decide)] at h
  · have h := (C4_T2star_amended inpB).2.1 0 0 0 (by with_unfolding_all decide)
      (by with_unfolding_all decide) (by with_unfolding_all decide)
    rwa [if_neg (by with_unfolding_all decide)] at h
  · exact (C4_T2star_amended inpC).2.2 (by norm_num) (by norm_num) (by norm_num)
      (by decide) (by decide) (by with_unfolding_all decide) 0 0 0

/-- Counterexample to C5 as stated: at the concrete input inpB the voxel
(0,0,0) is outside the mask, the in-mask median is 1/2, and the rad/s map
is 0 there while the saved (denoised) phase difference divided by dTE is
-250 (in units of pi per second) — so "rad/s equals dphi / dTE for all
voxels" fails because of the second mask multiplication. -/
theorem C5_fieldmap_linearity_counterexample :
    MeFmap.dB0_rad_s inpB 0 0 0 = Fv.fin 0
    ∧ Fv.div (MeFmap.dphi inpB 0 0 0) (Fv.fin (MeFmap.dTE inpB)) = Fv.fin (-250)
    ∧ MeFmap.dB0_rad_s inpB 0 0 0
        ≠ Fv.div (MeFmap.dphi inpB 0 0 0) (Fv.fin (MeFmap.dTE inpB)) := by
  with_unfolding_all decide

/-- C5 (amended): for every voxel, the Hz map equals the rad/s map divided
by 2 pi exactly (stated in pi units as division by 2, with the bridge back
to radians: a finite rad/s coefficient q and Hz value r satisfy
r = q * pi / (2 * pi) as real numbers); and the rad/s map equals the
denoised phase difference divided by dTE times the mask — hence equals
dphi / dTE at every in-mask voxel, but not in general outside the mask. -/
theorem C5_fieldmap_linearity_amended {nx ny nz : ℕ} (inp : MeFmap.MEInput nx ny nz) :
    ∀ i j k,
      MeFmap.dB0_Hz inp i j k = Fv.div (MeFmap.dB0_rad_s inp i j k) (Fv.fin 2)
      ∧ (∀ q r : ℚ, MeFmap.dB0_rad_s inp i j k = Fv.fin q →
          MeFmap.dB0_Hz inp i j k = Fv.fin r →
          (r : ℝ) = (q : ℝ) * Real.pi / (2 * Real.pi))
      ∧ (MeFmap.dB0_rad_s inp i j k
          = Fv.mul (Fv.div (MeFmap.dphi inp i j k) (Fv.fin (MeFmap.dTE inp)))
              (Fv.fin (MeFmap.mask inp i j k)))
      ∧ (MeFmap.mask inp i j k = 1 →
          MeFmap.dB0_rad_s inp i j k
            = Fv.div (MeFmap.dphi inp i j k) (Fv.fin (MeFmap.dTE inp))) := by
  intro i j k
  refine ⟨rfl, ?_, rfl, ?_⟩
  · intro q r hq hr
    unfold MeFmap.dB0_Hz at hr
    rw [hq, Fv.div_fin_fin q (by norm_num)] at hr
    have hqr : q / 2 = r := by
      injection hr
    rw [← hqr]
    push_cast
    field_simp
    ring
  · intro hm
    unfold MeFmap.dB0_rad_s
    rw [hm]
    exact Fv.mul_fin_one _

/-- Witness for C5 (amended) at the concrete input inpB and the in-mask
voxel (1,1,1). -/
theorem C5_fieldmap_linearity_amended_witness :
    MeFmap.mask inpB 1 1 1 = 1
    ∧ MeFmap.dB0_rad_s inpB 1 1 1
        = Fv.div (MeFmap.dphi inpB 1 1 1) (Fv.fin (MeFmap.dTE inpB)) :=
  ⟨by with_unfolding_all decide,
   (C5_fieldmap_linearity_amended inpB 1 1 1).2.2.2 (by with_unfolding_all decide)⟩

/-- C6: Zero-offset invariant.  For every input with a nonempty mask (the
in-mask selection of the filtered phase difference is nonempty), the
denoised phase-difference field is finite on the in-mask voxels and the
median of its in-mask values is exactly 0: the subtracted value is itself
the in-mask median of the filtered field, and subtracting a constant shifts
the median by that constant. -/
theorem C6_zero_offset_invariant {nx ny nz : ℕ} (inp : MeFmap.MEInput nx ny nz)
    (h : maskSelectP (MeFmap.dphi_filt inp) (MeFmap.mask inp) ≠ []) :
    ∃ qs : List ℚ,
      maskSelectP (MeFmap.dphi inp) (MeFmap.mask inp) = qs.map Fv.fin
      ∧ medianQ qs = 0 := by
  have hmed : MeFmap.dphi_med inp
      = Fv.fin (medianQ (maskSelectP (MeFmap.dphi_filt inp) (MeFmap.mask inp))) := by
    unfold MeFmap.dphi_med npMedian
    rw [if_neg]
    rw [List.isEmpty_iff]
    exact h
  refine ⟨(maskSelectP (MeFmap.dphi_filt inp) (MeFmap.mask inp)).map
    (fun x => x - medianQ (maskSelectP (MeFmap.dphi_filt inp) (MeFmap.mask inp))),
    ?_, ?_⟩
  · have hcomp := maskSelectP_comp (MeFmap.dphi_filt inp)
      (fun q => Fv.sub (Fv.fin q) (MeFmap.dphi_med inp)) (MeFmap.mask inp)
    rw [show MeFmap.dphi inp = fun i j k =>
        Fv.sub (Fv.fin (MeFmap.dphi_filt inp i j k)) (MeFmap.dphi_med inp) from rfl]
    rw [hcomp, hmed, List.map_map]
    apply List.map_congr_left
    intro a _
    simp [Fv.sub_fin_fin]
  · rw [medianQ_map_sub _ h]
    simp

/-- Witness for C6 at the concrete input inpB, whose mask selects the seven
central voxels. -/
theorem C6_zero_offset_invariant_witness :
    maskSelectP (MeFmap.dphi_filt inpB) (MeFmap.mask inpB) ≠ []
    ∧ ∃ qs : List ℚ,
        maskSelectP (MeFmap.dphi inpB) (MeFmap.mask inpB) = qs.map Fv.fin
        ∧ medianQ qs = 0 :=
  ⟨by with_unfolding_all decide,
   C6_zero_offset_invariant inpB (by with_unfolding_all decide)⟩

theorem dB0_Hz_isFin {nx ny nz : ℕ} (inp : MeFmap.MEInput nx ny nz)
    (hdte : MeFmap.dTE inp ≠ 0) {m : ℚ} (hm : MeFmap.dphi_med inp = Fv.fin m)
    (i : Fin nx) (j : Fin ny) (k : Fin nz) :
    ∃ q, MeFmap.dB0_Hz inp i j k = Fv.fin q := by
  refine ⟨(MeFmap.dphi_filt inp i j k - m) / MeFmap.dTE inp
    * MeFmap.mask inp i j k / 2, ?_⟩
  unfold MeFmap.dB0_Hz MeFmap.dB0_rad_s MeFmap.dphi
  rw [hm, Fv.sub_fin_fin, Fv.div_fin_fin _ hdte, Fv.mul_fin_fin,
    Fv.div_fin_fin _ (show (2 : ℚ) ≠ 0 by norm_num)]

theorem npGradX_isFin {nx ny nz : ℕ} (f : Vol nx ny nz Fv) (h : ℚ) (hn : 2 ≤ nx)
    (hh : h ≠ 0) (hf : ∀ i j k, ∃ q, f i j k = Fv.fin q)
    (i : Fin nx) (j : Fin ny) (k : Fin nz) : ∃ q, npGradX f h i j k = Fv.fin q := by
  have hi := i.2
  have h2h : 2 * h ≠ 0 := mul_ne_zero (by norm_num) hh
  have hget : ∀ a, a < nx → ∃ q, get3F f a j.1 k.1 = Fv.fin q := fun a ha => by
    rw [get3F_in_range f ha j.2 k.2]
    exact hf _ _ _
  unfold npGradX
  by_cases h0 : i.1 = 0
  · obtain ⟨q1, hq1⟩ := hget 1 (by omega)
    obtain ⟨q0, hq0⟩ := hget 0 (by omega)
    rw [if_pos h0, hq1, hq0, Fv.sub_fin_fin, Fv.div_fin_fin _ hh]
    exact ⟨_, rfl⟩
  · rw [if_neg h0]
    by_cases hend : i.1 = nx - 1
    · obtain ⟨q1, hq1⟩ := hget i.1 (by omega)
      obtain ⟨q0, hq0⟩ := hget (i.1 - 1) (by omega)
      rw [if_pos hend, hq1, hq0, Fv.sub_fin_fin, Fv.div_fin_fin _ hh]
      exact ⟨_, rfl⟩
    · obtain ⟨q1, hq1⟩ := hget (i.1 + 1) (by omega)
      obtain ⟨q0, hq0⟩ := hget (i.1 - 1) (by omega)
      rw [if_neg hend, hq1, hq0, Fv.sub_fin_fin, Fv.div_fin_fin _ h2h]
      exact ⟨_, rfl⟩

theorem npGradY_isFin {nx ny nz : ℕ} (f : Vol nx ny nz Fv) (h : ℚ) (hn : 2 ≤ ny)
    (hh : h ≠ 0) (hf : ∀ i j k, ∃ q, f i j k = Fv.fin q)
    (i : Fin nx) (j : Fin ny) (k : Fin nz) : ∃ q, npGradY f h i j k = Fv.fin q := by
  have hj := j.2
  have h2h : 2 * h ≠ 0 := mul_ne_zero (by norm_num) hh
  have hget : ∀ b, b < ny → ∃ q, get3F f i.1 b k.1 = Fv.fin q := fun b hb => by
    rw [get3F_in_range f i.2 hb k.2]
    exact hf _ _ _
  unfold npGradY
  by_cases h0 : j.1 = 0
  · obtain ⟨q1, hq1⟩ := hget 1 (by omega)
    obtain ⟨q0, hq0⟩ := hget 0 (by omega)
    rw [if_pos h0, hq1, hq0, Fv.sub_fin_fin, Fv.div_fin_fin _ hh]
    exact ⟨_, rfl⟩
  · rw [if_neg h0]
    by_cases hend : j.1 = ny - 1
    · obtain ⟨q1, hq1⟩ := hget j.1 (by omega)
      obtain ⟨q0, hq0⟩ := hget (j.1 - 1) (by omega)
      rw [if_pos hend, hq1, hq0, Fv.sub_fin_fin, Fv.div_fin_fin _ hh]
      exact ⟨_, rfl⟩
    · obtain ⟨q1, hq1⟩ := hget (j.1 + 1) (by omega)
      obtain ⟨q0, hq0⟩ := hget (j.1 - 1) (by omega)
      rw [if_neg hend, hq1, hq0, Fv.sub_fin_fin, Fv.div_fin_fin _ h2h]
      exact ⟨_, rfl⟩

theorem npGradZ_isFin {nx ny nz : ℕ} (f : Vol nx ny nz Fv) (h : ℚ) (hn : 2 ≤ nz)
    (hh : h ≠ 0) (hf : ∀ i j k, ∃ q, f i j k = Fv.fin q)
    (i : Fin nx) (j : Fin ny) (k : Fin nz) : ∃ q, npGradZ f h i j k = Fv.fin q := by
  have hk := k.2
  have h2h : 2 * h ≠ 0 := mul_ne_zero (by norm_num) hh
  have hget : ∀ c, c < nz → ∃ q, get3F f i.1 j.1 c = Fv.fin q := fun c hc => by
    rw [get3F_in_range f i.2 j.2 hc]
    exact hf _ _ _
  unfold npGradZ
  by_cases h0 : k.1 = 0
  · obtain ⟨q1, hq1⟩ := hget 1 (by omega)
    obtain ⟨q0, hq0⟩ := hget 0 (by omega)
    rw [if_pos h0, hq1, hq0, Fv.sub_fin_fin, Fv.div_fin_fin _ hh]
    exact ⟨_, rfl⟩
  · rw [if_neg h0]
    by_cases hend : k.1 = nz - 1
    · obtain ⟨q1, hq1⟩ := hget k.1 (by omega)
      obtain ⟨q0, hq0⟩ := hget (k.1 - 1) (by omega)
      rw [if_pos hend, hq1, hq0, Fv.sub_fin_fin, Fv.div_fin_fin _ hh]
      exact ⟨_, rfl⟩
    · obtain ⟨q1, hq1⟩ := hget (k.1 + 1) (by omega)
      obtain ⟨q0, hq0⟩ := hget (k.1 - 1) (by omega)
      rw [if_neg hend, hq1, hq0, Fv.sub_fin_fin, Fv.div_fin_fin _ h2h]
      exact ⟨_, rfl⟩

/-- Counterexample to C7 as stated: at the concrete degenerate input inpD
(first-echo magnitude identically zero), the voxel (0,0,0) is outside the
mask yet the stacked field gradient there is (NaN, NaN, NaN), not (0,0,0):
the Hz map is NaN everywhere and NaN times the zero mask stays NaN. -/
theorem C7_gradient_masking_counterexample :
    MeFmap.mask inpD 0 0 0 = 0
    ∧ MeFmap.grad_dB0 inpD 0 0 0 = (Fv.nan, Fv.nan, Fv.nan)
    ∧ MeFmap.grad_dB0 inpD 0 0 0 ≠ (Fv.fin 0, Fv.fin 0, Fv.fin 0) := by
  with_unfolding_all decide

/-- C7 (amended): on every run where the in-mask median is finite (the mask
is nonempty), dTE is nonzero, the affine diagonal entries are nonzero and
every axis has at least 2 samples (the domain of np.gradient), the
3-vector field gradient is (0, 0, 0) at every voxel outside the mask. -/
theorem C7_gradient_masking_amended {nx ny nz : ℕ} (inp : MeFmap.MEInput nx ny nz)
    (hx : 2 ≤ nx) (hy : 2 ≤ ny) (hz : 2 ≤ nz)
    (hdte : MeFmap.dTE inp ≠ 0) (hmed : ∃ m, MeFmap.dphi_med inp = Fv.fin m)
    (hTx : inp.T00 ≠ 0) (hTy : inp.T11 ≠ 0) (hTz : inp.T22 ≠ 0) :
    ∀ i j k, MeFmap.mask inp i j k = 0 →
      MeFmap.grad_dB0 inp i j k = (Fv.fin 0, Fv.fin 0, Fv.fin 0) := by
  obtain ⟨m, hm⟩ := hmed
  have hhz : ∀ i j k, ∃ q, MeFmap.dB0_Hz inp i j k = Fv.fin q :=
    fun i j k => dB0_Hz_isFin inp hdte hm i j k
  have hdx : MeFmap.dx inp ≠ 0 := by
    unfold MeFmap.dx
    exact div_ne_zero (abs_ne_zero.mpr hTx) (by norm_num)
  have hdy : MeFmap.dy inp ≠ 0 := by
    unfold MeFmap.dy
    exact div_ne_zero (abs_ne_zero.mpr hTy) (by norm_num)
  have hdz : MeFmap.dz inp ≠ 0 := by
    unfold MeFmap.dz
    exact div_ne_zero (abs_ne_zero.mpr hTz) (by norm_num)
  intro i j k hmask
  obtain ⟨qx, hqx⟩ := npGradX_isFin (MeFmap.dB0_Hz inp) (MeFmap.dx inp) hx hdx hhz i j k
  obtain ⟨qy, hqy⟩ := npGradY_isFin (MeFmap.dB0_Hz inp) (MeFmap.dy inp) hy hdy hhz i j k
  obtain ⟨qz, hqz⟩ := npGradZ_isFin (MeFmap.dB0_Hz inp) (MeFmap.dz inp) hz hdz hhz i j k
  unfold MeFmap.grad_dB0 MeFmap.gx MeFmap.gy MeFmap.gz
  rw [hqx, hqy, hqz, hmask,
    Fv.div_fin_fin 0 (show (42580 : ℚ) ≠ 0 by norm_num), Fv.mul_fin_fin,
    Fv.mul_fin_fin, Fv.mul_fin_fin]
  norm_num

/-- Witness for C7 (amended) at the concrete input inpB and the
out-of-mask corner voxel (0,0,0). -/
theorem C7_gradient_masking_amended_witness :
    (MeFmap.dTE inpB ≠ 0 ∧ MeFmap.dphi_med inpB = Fv.fin (1 / 2)
      ∧ inpB.T00 ≠ 0 ∧ MeFmap.mask inpB 0 0 0 = 0)
    ∧ MeFmap.grad_dB0 inpB 0 0 0 = (Fv.fin 0, Fv.fin 0, Fv.fin 0) :=
  ⟨⟨by with_unfolding_all decide, by with_unfolding_all decide,
    by decide, by with_unfolding_all decide⟩,
   C7_gradient_masking_amended inpB (by norm_num) (by norm_num) (by norm_num)
     (by with_unfolding_all decide) ⟨1 / 2, by with_unfolding_all decide⟩
     (by decide) (by decide) (by decide) 0 0 0 (by with_unfolding_all decide)⟩

/-- Counterexample to C8 as stated: at the concrete input inpB the voxel
(0,0,0) is outside the mask, yet the saved phase-difference map holds -1/2
there (in units of pi), not 0: masking zeroed it, but the in-mask median
1/2 was subtracted from the whole field afterwards. -/
theorem C8_dphi_masking_counterexample :
    MeFmap.mask inpB 0 0 0 = 0
    ∧ MeFmap.dphi inpB 0 0 0 = Fv.fin (-(1 / 2))
    ∧ MeFmap.dphi inpB 0 0 0 ≠ Fv.fin 0 := by
  with_unfolding_all decide

/-- C8 (amended): in the saved phase-difference volume, every voxel outside
the mask holds 0 minus the in-mask median — the negated median when the
median is finite — and it is 0 exactly when the in-mask median is 0. -/
theorem C8_dphi_masking_amended {nx ny nz : ℕ} (inp : MeFmap.MEInput nx ny nz)
    (i : Fin nx) (j : Fin ny) (k : Fin nz) (hm : MeFmap.mask inp i j k = 0) :
    MeFmap.dphi inp i j k = Fv.sub (Fv.fin 0) (MeFmap.dphi_med inp)
    ∧ (∀ m : ℚ, MeFmap.dphi_med inp = Fv.fin m →
        MeFmap.dphi inp i j k = Fv.fin (-m))
    ∧ (MeFmap.dphi inp i j k = Fv.fin 0 ↔ MeFmap.dphi_med inp = Fv.fin 0) := by
  have hfilt : MeFmap.dphi_filt inp i j k = 0 := by
    unfold MeFmap.dphi_filt
    rw [hm, mul_zero]
  have h1 : MeFmap.dphi inp i j k = Fv.sub (Fv.fin 0) (MeFmap.dphi_med inp) := by
    unfold MeFmap.dphi
    rw [hfilt]
  refine ⟨h1, ?_, ?_⟩
  · intro m hmed
    rw [h1, hmed, Fv.sub_fin_fin]
    norm_num
  · rw [h1]
    cases hmed : MeFmap.dphi_med inp with
    | fin m =>
      rw [Fv.sub_fin_fin]
      simp [Fv.fin.injEq, sub_eq_zero, eq_comm]
    | pinf => decide
    | ninf => decide
    | nan => decide

/-- Witness for C8 (amended) at the concrete input inpB and the
out-of-mask corner voxel (0,0,0), whose in-mask median is 1/2. -/
theorem C8_dphi_masking_amended_witness :
    (MeFmap.mask inpB 0 0 0 = 0 ∧ MeFmap.dphi_med inpB = Fv.fin (1 / 2))
    ∧ MeFmap.dphi inpB 0 0 0 = Fv.fin (-(1 / 2)) :=
  ⟨⟨by with_unfolding_all decide, by with_unfolding_all decide⟩,
   (C8_dphi_masking_amended inpB 0 0 0 (by with_unfolding_all decide)).2.1
     (1 / 2) (by with_unfolding_all decide)⟩

/-- C9 (the code lacks the checks): at the concrete input inpF the echo
times are strictly decreasing (dTE < 0), a violation of the echo-time
precondition; yet the pipeline raises nothing and simply computes — it
produces the nonphysical T2star value -2 / ln 2 milliseconds and a rad/s
map, contradicting the claim that an InvalidEchoTimesError (or any check at
all) fires before computation.  No geometry or echo-time comparison exists
anywhere in me_fmap.py. -/
theorem C9_no_precondition_checks :
    MeFmap.dTE inpF < 0
    ∧ MeFmap.T2star_ms inpF 0 0 0 = Rv.fin (-2 / Real.log 2)
    ∧ MeFmap.dB0_rad_s inpF 0 0 0 = Fv.fin 0 := by
  refine ⟨by with_unfolding_all decide, ?_, by with_unfolding_all decide⟩
  unfold MeFmap.T2star_ms
  have hm : MeFmap.mask inpF 0 0 0 = 1 := by
    with_unfolding_all decide
  have hr : Fv.div (Fv.fin (inpF.mag0 0 0 0)) (Fv.fin (inpF.mag1 0 0 0))
      = Fv.fin 2 := by
    with_unfolding_all decide
  have hdte : MeFmap.dTE inpF = -(1 / 500) := by
    with_unfolding_all decide
  rw [hr, hm, npLog_fin_pos (by norm_num),
    show Real.log ((2 : ℚ) : ℝ) = Real.log 2 by norm_num,
    Rv.div_both_fin _ (ne_of_gt (Real.log_pos (by norm_num))), Rv.mul_both_fin, hdte]
  congr 1
  push_cast
  ring

/-- C10: the rad/s and Hz field maps are exactly 0 at every voxel outside
the mask whenever dTE is nonzero and the in-mask median is finite: the
masked filtered field is 0 there, the median subtraction leaves the finite
value -median, and the final multiplication by the zero mask yields 0 —
even though the saved phase-difference map itself is -median there. -/
theorem C10_fieldmaps_zero_outside_mask {nx ny nz : ℕ} (inp : MeFmap.MEInput nx ny nz)
    (hdte : MeFmap.dTE inp ≠ 0) (hmed : ∃ m, MeFmap.dphi_med inp = Fv.fin m) :
    ∀ i j k, MeFmap.mask inp i j k = 0 →
      MeFmap.dB0_rad_s inp i j k = Fv.fin 0
      ∧ MeFmap.dB0_Hz inp i j k = Fv.fin 0 := by
  obtain ⟨m, hm⟩ := hmed
  intro i j k hmask
  have hfilt : MeFmap.dphi_filt inp i j k = 0 := by
    unfold MeFmap.dphi_filt
    rw [hmask, mul_zero]
  have hdphi : MeFmap.dphi inp i j k = Fv.fin (0 - m) := by
    unfold MeFmap.dphi
    rw [hfilt, hm, Fv.sub_fin_fin]
  have hrad : MeFmap.dB0_rad_s inp i j k = Fv.fin 0 := by
    unfold MeFmap.dB0_rad_s
    rw [hdphi, Fv.div_fin_fin _ hdte, hmask, Fv.mul_fin_fin, mul_zero]
  refine ⟨hrad, ?_⟩
  unfold MeFmap.dB0_Hz
  rw [hrad, Fv.div_fin_fin 0 (show (2 : ℚ) ≠ 0 by norm_num), zero_div]

/-- Witness for C10 at the concrete input inpB and the out-of-mask corner
voxel (0,0,0): the saved phase difference is -1/2 there, yet both field
maps are 0. -/
theorem C10_fieldmaps_zero_outside_mask_witness :
    (MeFmap.dTE inpB ≠ 0 ∧ MeFmap.dphi_med inpB = Fv.fin (1 / 2)
      ∧ MeFmap.mask inpB 0 0 0 = 0)
    ∧ (MeFmap.dB0_rad_s inpB 0 0 0 = Fv.fin 0
      ∧ MeFmap.dB0_Hz inpB 0 0 0 = Fv.fin 0) :=
  ⟨⟨by with_unfolding_all decide, by with_unfolding_all decide,
    by with_unfolding_all decide⟩,
   C10_fieldmaps_zero_outside_mask inpB (by with_unfolding_all decide)
     ⟨1 / 2, by with_unfolding_all decide⟩ 0 0 0 (by with_unfolding_all decide)⟩
